import Mathlib

/-!
Shallow embedding of the `warmy` hot-reloading resource cache
(`src/key.rs`, `src/res.rs`, `src/load.rs`).

Modelling choices:

* Rust `Path`s are lists of components (`Component.rootDir` is the leading
  root marker, `Component.normal s` a plain component), mirroring
  `std::path::Component` as used by `vfs_substite_path`.
* `DepKey` mirrors `key::DepKey` (`Path` / `Logical` variants) with
  `prepare_key` and `vfs_substite_path` translated from `src/key.rs`.
* `Res<T>` cells (`Rc<RefCell<T>>`) are modelled as indices into a heap
  (`Storage.heap`); the index is the handle identity, `Res::new` appends a
  cell, `*handle.borrow_mut() = v` writes the cell.
* The `HashCache` / `HashMap` fields of `Storage` are association lists with
  the lookup/insert/remove semantics of hash maps (`alLookup`, `alInsert`,
  `alRemove`).  The cache is keyed by the pair of the key and a `Tag`
  standing for the value-type + method identity of `PrivateKey<K, T>`.
* Loaders (`Load::load`) and reload functions (`Load::reload`) receive the
  storage and context and return them updated, modelling `&mut Storage` /
  `&mut C` re-entrancy; loader error types are collapsed to `String`
  (`Display`-boxed in the source).
* The stored reload closure built in `Storage::inject` is defunctionalized
  as `ResMetaData` (captured cell, key and tag); invoking it
  (`runOnReload`) looks the tag up in a `Reloaders` registry, mirroring the
  closure body at `load.rs` lines 157-168.
* `Synchronizer.reload_dirties` additionally returns a ghost trace: one
  `ReloadEvent` is appended at each `(metadata.on_reload)(storage, ctx)`
  call site, recording the key of the invoked metadata record, whether the
  call is a dependent-cascade call, whether that key's metadata was absent
  from the storage passed to the closure, and whether the closure
  succeeded.  The trace is write-only instrumentation; the state components
  are a direct translation of the source.
-/

/-- Model of a Rust path component: the root marker or a normal component. -/
inductive Component where
  | rootDir : Component
  | normal : String → Component
deriving DecidableEq, Repr

/-- Model of a Rust path as its list of components. -/
abbrev RPath := List Component

/-- Mirror of `key::DepKey`: a filesystem path key or a logical key. -/
inductive DepKey where
  | path : RPath → DepKey
  | logical : String → DepKey
deriving DecidableEq, Repr

/-- Translation of `key::vfs_substite_path`: if the path starts with the
root component, drop it and chain the rest behind the root's components;
otherwise chain all components behind the root's. -/
def vfs_substite_path (path : RPath) (root : RPath) : RPath :=
  match path with
  | Component.rootDir :: rest => root ++ rest
  | _ => root ++ path

/-- Translation of `impl Key for DepKey`: path keys get root-substituted,
logical keys are returned unchanged. -/
def DepKey.prepare_key (k : DepKey) (root : RPath) : DepKey :=
  match k with
  | .path p => .path (vfs_substite_path p root)
  | .logical s => .logical s

/-- Association-list lookup, the model of `HashMap::get` / cache lookup. -/
def alLookup {α β : Type} [DecidableEq α] : List (α × β) → α → Option β
  | [], _ => none
  | (a', b) :: t, a => if a' = a then some b else alLookup t a

/-- Association-list removal of every binding of a key, the model of
`HashMap::remove` (the lists we build never hold a key twice). -/
def alRemove {α β : Type} [DecidableEq α] : List (α × β) → α → List (α × β)
  | [], _ => []
  | (a', b) :: t, a => if a' = a then alRemove t a else (a', b) :: alRemove t a

/-- Association-list insertion with overwrite, the model of
`HashMap::insert` / `HashCache::save` (hash maps are unordered, so placing
the fresh binding first is observationally identical). -/
def alInsert {α β : Type} [DecidableEq α] (l : List (α × β)) (a : α) (b : β) :
    List (α × β) :=
  (a, b) :: alRemove l a

/-- Model of `self.deps.entry(dep).or_insert_with(Vec::new).push(key)`. -/
def depsPush (dm : List (DepKey × List DepKey)) (dep : DepKey) (key : DepKey) :
    List (DepKey × List DepKey) :=
  match alLookup dm dep with
  | some v => alInsert dm dep (v ++ [key])
  | none => alInsert dm dep [key]

/-- Tag standing for the identity of the value type `T` together with the
method tag `M` of `Load<C, K, M>`, as encoded by `PrivateKey<K, T>`. -/
abbrev Tag := Nat

/-- Mirror of `load::StoreError`. -/
inductive StoreError where
  | rootDoesNotExist : RPath → StoreError
  | alreadyRegisteredKey : DepKey → StoreError
deriving DecidableEq, Repr

/-- Mirror of `load::StoreErrorOr` with the loader error collapsed to
`String` (its `Display` rendering). -/
inductive StoreErrorOr where
  | storeError : StoreError → StoreErrorOr
  | resError : String → StoreErrorOr
deriving DecidableEq, Repr

/-- Defunctionalized `load::ResMetaData`: the data captured by the reload
closure built in `Storage::inject` (handle clone, key clone and the
`(T, M)` instantiation of the closure body). -/
structure ResMetaData where
  cell : Nat
  key : DepKey
  tag : Tag
deriving DecidableEq, Repr

/-- Mirror of `load::Storage`: canonicalized root, type-tagged resource
cache, dependency map, metadata map, plus the heap of `Res` cells the
handles point into. -/
structure Storage (V : Type) where
  canon_root : RPath
  cache : List ((DepKey × Tag) × Nat)
  deps : List (DepKey × List DepKey)
  metadata : List (DepKey × ResMetaData)
  heap : List V
deriving DecidableEq, Repr

/-- Translation of `Storage::new`. -/
def Storage.new (V : Type) (canon_root : RPath) : Storage V :=
  { canon_root := canon_root, cache := [], deps := [], metadata := [], heap := [] }

/-- Model of `Load::load` for one `(T, M)` instantiation: the loader gets
the (prepared) key and mutable access to storage and context, and returns
either an error or the loaded value with its declared dependencies. -/
abbrev LoadFn (V C : Type) :=
  DepKey → Storage V → C → (Except String (V × List DepKey)) × Storage V × C

/-- Model of `Load::reload` for one `(T, M)` instantiation: it receives the
borrowed current value, the captured key, and mutable access to storage
and context. -/
abbrev ReloadFn (V C : Type) :=
  V → DepKey → Storage V → C → (Except String V) × Storage V × C

/-- Registry assigning to every tag the `Load::reload` implementation of
its `(T, M)` instantiation. -/
abbrev Reloaders (V C : Type) := Tag → ReloadFn V C

/-- Translation of `Storage::inject` (`load.rs` lines 144-189): refuse an
already-registered key, allocate a fresh cell, record the metadata, record
the prepared dependency edges, cache the handle under the type-tagged key,
and return the handle (the fresh cell index). -/
def Storage.inject {V : Type} (st : Storage V) (key : DepKey) (tag : Tag)
    (resource : V) (deps : List DepKey) : Except StoreError (Nat × Storage V) :=
  if (alLookup st.metadata key).isSome then
    .error (.alreadyRegisteredKey key)
  else
    let cell := st.heap.length
    let heap := st.heap ++ [resource]
    let metadata := alInsert st.metadata key ⟨cell, key, tag⟩
    let depsMap := deps.foldl
      (fun dm dep => depsPush dm (dep.prepare_key st.canon_root) key) st.deps
    let cache := alInsert st.cache (key, tag) cell
    .ok (cell, { st with cache := cache, deps := depsMap, metadata := metadata,
                         heap := heap })

/-- Translation of `Storage::get_by` (`load.rs` lines 201-227); `get` is
`get_by` with the default method, i.e. the same function at the `(T, ())`
tag.  The `load` argument is the `Load::load` implementation selected by
`T` and the method tag. -/
def Storage.get_by {V C : Type} (st : Storage V) (load : LoadFn V C)
    (key : DepKey) (tag : Tag) (ctx : C) :
    (Except StoreErrorOr Nat) × Storage V × C :=
  let key := key.prepare_key st.canon_root
  match alLookup st.cache (key, tag) with
  | some resource => (.ok resource, st, ctx)
  | none =>
    match load key st ctx with
    | (.error e, st', ctx') => (.error (.resError e), st', ctx')
    | (.ok (v, deps), st', ctx') =>
      match st'.inject key tag v deps with
      | .error e => (.error (.storeError e), st', ctx')
      | .ok (cell, st'') => (.ok cell, st'', ctx')

/-- Translation of `Storage::get_proxied` / `Storage::get_proxied_by`
(`load.rs` lines 233-265): `get`/`get_by`, falling back on any error to
injecting the proxy value under the original (unprepared) key with no
dependencies. -/
def Storage.get_proxied {V C : Type} (st : Storage V) (load : LoadFn V C)
    (key : DepKey) (tag : Tag) (proxy : Unit → V) (ctx : C) :
    (Except StoreError Nat) × Storage V × C :=
  match st.get_by load key tag ctx with
  | (.ok resource, st', ctx') => (.ok resource, st', ctx')
  | (.error _, st', ctx') =>
    match st'.inject key tag (proxy ()) [] with
    | .ok (cell, st'') => (.ok cell, st'', ctx')
    | .error e => (.error e, st', ctx')

/-- Model of reading a borrowed cell (`res_.borrow()`); out-of-range reads
cannot happen for cells allocated by `inject` and fall back to `default`. -/
def heapGet {V : Type} [Inhabited V] (h : List V) (i : Nat) : V :=
  h.getD i default

/-- Invocation of the stored reload closure built in `Storage::inject`
(`load.rs` lines 157-168): call `Load::reload` on the borrowed current
value; on success move the new value into the cell; on failure return the
(boxed) loader error and touch nothing. -/
def runOnReload {V C : Type} [Inhabited V] (rl : Reloaders V C)
    (md : ResMetaData) (st : Storage V) (ctx : C) :
    (Except String Unit) × Storage V × C :=
  match rl md.tag (heapGet st.heap md.cell) md.key st ctx with
  | (.ok r, st', ctx') => (.ok (), { st' with heap := st'.heap.set md.cell r }, ctx')
  | (.error e, st', ctx') => (.error e, st', ctx')

/-- Ghost record of one reload-closure invocation inside
`Synchronizer::reload_dirties`. -/
structure ReloadEvent where
  key : DepKey
  isDependent : Bool
  removedAtCall : Bool
  ok : Bool
deriving DecidableEq, Repr

/-- Dependent-cascade loop body of `Synchronizer::reload_dirties`
(`load.rs` lines 427-437): temporarily remove the dependent's metadata,
invoke its reload closure discarding the result, and reinsert the
metadata. -/
def reloadDep {V C : Type} [Inhabited V] (rl : Reloaders V C)
    (acc : Storage V × C × List ReloadEvent) (dep : DepKey) :
    Storage V × C × List ReloadEvent :=
  let (st, ctx, evs) := acc
  match alLookup st.metadata dep with
  | none => (st, ctx, evs)
  | some obs_metadata =>
    let st1 : Storage V := { st with metadata := alRemove st.metadata dep }
    let removed := (alLookup st1.metadata dep).isNone
    let (r, st2, ctx2) := runOnReload rl obs_metadata st1 ctx
    let st3 : Storage V := { st2 with metadata := alInsert st2.metadata dep obs_metadata }
    (st3, ctx2, evs ++ [⟨dep, true, removed, r.toBool⟩])

/-- Body of the `dirties.retain` closure of `Synchronizer::reload_dirties`
(`load.rs` lines 422-444) for one dirty key: temporarily remove its
metadata, invoke the reload closure, on success fire the dependents listed
in the dependency map, and reinsert the metadata; the key is always
dropped from the dirty set (`retain` returns `false`). -/
def reloadOne {V C : Type} [Inhabited V] (rl : Reloaders V C) (st : Storage V)
    (ctx : C) (dep_key : DepKey) : Storage V × C × List ReloadEvent :=
  match alLookup st.metadata dep_key with
  | none => (st, ctx, [])
  | some metadata =>
    let st1 : Storage V := { st with metadata := alRemove st.metadata dep_key }
    let removed := (alLookup st1.metadata dep_key).isNone
    let (r, st2, ctx2) := runOnReload rl metadata st1 ctx
    let (st3, ctx3, evs) :=
      if r.toBool then
        match alLookup st2.deps dep_key with
        | some deps => deps.foldl (reloadDep rl) (st2, ctx2, [])
        | none => (st2, ctx2, [])
      else (st2, ctx2, [])
    let st4 : Storage V := { st3 with metadata := alInsert st3.metadata dep_key metadata }
    (st4, ctx3, ⟨dep_key, false, removed, r.toBool⟩ :: evs)

/-- One `retain` iteration of `Synchronizer::reload_dirties`: process the
dirty key and append its trace. -/
def reloadStep {V C : Type} [Inhabited V] (rl : Reloaders V C)
    (acc : Storage V × C × List ReloadEvent) (k : DepKey) :
    Storage V × C × List ReloadEvent :=
  let (st, ctx, tr) := acc
  let (st', ctx', tr') := reloadOne rl st ctx k
  (st', ctx', tr ++ tr')

/-- Translation of `Synchronizer::reload_dirties` (`load.rs` lines
421-445): process every dirty key and return the emptied dirty set, the
updated storage and context, and the ghost invocation trace. -/
def reload_dirties {V C : Type} [Inhabited V] (rl : Reloaders V C)
    (dirties : List DepKey) (st : Storage V) (ctx : C) :
    List DepKey × Storage V × C × List ReloadEvent :=
  let (st', ctx', tr) := dirties.foldl (reloadStep rl) (st, ctx, [])
  ([], st', ctx', tr)

/-- Model of the debounced filesystem events consumed by
`Synchronizer::dequeue_fs_events`. -/
inductive FsEvent where
  | write : RPath → FsEvent
  | create : RPath → FsEvent
  | other : FsEvent
deriving DecidableEq, Repr

/-- Model of the discovery closure `(path, &mut Storage, &mut C)`. -/
abbrev DiscoveryFn (V C : Type) := RPath → Storage V → C → Storage V × C

/-- Translation of `Synchronizer::dequeue_fs_events` (`load.rs` lines
401-418): for every `Write`/`Create` event form the key from the raw event
path; mark it dirty when the metadata map knows it, otherwise run the
discovery hook; ignore other events. -/
def dequeue_fs_events {V C : Type} (disc : DiscoveryFn V C)
    (events : List FsEvent) (dirties : List DepKey) (st : Storage V) (ctx : C) :
    List DepKey × Storage V × C :=
  events.foldl
    (fun (acc : List DepKey × Storage V × C) ev =>
      let (dirties, st, ctx) := acc
      match ev with
      | .write p | .create p =>
        let key := DepKey.path p
        if (alLookup st.metadata key).isSome then
          (if key ∈ dirties then dirties else dirties ++ [key], st, ctx)
        else
          let (st', ctx') := disc p st ctx
          (dirties, st', ctx')
      | .other => (dirties, st, ctx))
    (dirties, st, ctx)

/-- Translation of `Synchronizer::sync` (`load.rs` lines 448-452):
dequeue filesystem events, then reload the dirty keys. -/
def syncStore {V C : Type} [Inhabited V] (disc : DiscoveryFn V C)
    (rl : Reloaders V C) (events : List FsEvent) (dirties : List DepKey)
    (st : Storage V) (ctx : C) :
    List DepKey × Storage V × C × List ReloadEvent :=
  let (dirties', st', ctx') := dequeue_fs_events disc events dirties st ctx
  reload_dirties rl dirties' st' ctx'

/-- Translation of `Store::new` (`load.rs` lines 470-496).  The outcome of
`root.canonicalize()` is passed in as `canonResult` (`none` models the
`Err` case) and the outcome of `watcher.watch(..)` as `watchOk`; the
source discards the latter (`let _ = watcher.watch(..)`).  On success the
store starts with an empty storage rooted at the canonicalized root and an
empty dirty set. -/
def StoreNew (V : Type) (root : RPath) (canonResult : Option RPath)
    (watchOk : Bool) : Except StoreError (Storage V × List DepKey) :=
  match canonResult with
  | none => .error (.rootDoesNotExist root)
  | some canon_root =>
    let _ := watchOk
    .ok (Storage.new V canon_root, [])

/-! ## Association-list lemmas -/

theorem alLookup_alRemove_self {α β : Type} [DecidableEq α] (l : List (α × β))
    (a : α) : alLookup (alRemove l a) a = none := by
  induction l with
  | nil => rfl
  | cons e t ih =>
    obtain ⟨a', b⟩ := e
    by_cases h : a' = a
    · simpa [alRemove, h] using ih
    · simp [alRemove, alLookup, h, ih]

theorem alLookup_alRemove_ne {α β : Type} [DecidableEq α] (l : List (α × β))
    (a a' : α) (h : a' ≠ a) : alLookup (alRemove l a) a' = alLookup l a' := by
  induction l with
  | nil => rfl
  | cons e t ih =>
    obtain ⟨a'', b⟩ := e
    simp only [alRemove]
    by_cases h2 : a'' = a
    · subst h2
      rw [if_pos rfl, ih]
      simp [alLookup, Ne.symm h]
    · rw [if_neg h2]
      by_cases h3 : a'' = a'
      · simp [alLookup, h3]
      · simp [alLookup, h3, ih]

theorem alLookup_alInsert_self {α β : Type} [DecidableEq α] (l : List (α × β))
    (a : α) (b : β) : alLookup (alInsert l a b) a = some b := by
  simp [alInsert, alLookup]

theorem alLookup_alInsert_ne {α β : Type} [DecidableEq α] (l : List (α × β))
    (a a' : α) (b : β) (h : a' ≠ a) :
    alLookup (alInsert l a b) a' = alLookup l a' := by
  simp [alInsert, alLookup, Ne.symm h, alLookup_alRemove_ne l a a' h]

theorem mem_alRemove {α β : Type} [DecidableEq α] (l : List (α × β)) (a : α)
    (e : α × β) : e ∈ alRemove l a ↔ e ∈ l ∧ e.1 ≠ a := by
  induction l with
  | nil => simp [alRemove]
  | cons e' t ih =>
    obtain ⟨a', b⟩ := e'
    simp only [alRemove]
    by_cases h : a' = a
    · subst h
      rw [if_pos rfl, ih]
      simp only [List.mem_cons]
      constructor
      · rintro ⟨h1, h2⟩
        exact ⟨Or.inr h1, h2⟩
      · rintro ⟨rfl | h1, h2⟩
        · exact absurd rfl h2
        · exact ⟨h1, h2⟩
    · rw [if_neg h]
      simp only [List.mem_cons, ih]
      constructor
      · rintro (rfl | ⟨h1, h2⟩)
        · exact ⟨Or.inl rfl, h⟩
        · exact ⟨Or.inr h1, h2⟩
      · rintro ⟨rfl | h1, h2⟩
        · exact Or.inl rfl
        · exact Or.inr ⟨h1, h2⟩

theorem mem_alInsert {α β : Type} [DecidableEq α] (l : List (α × β)) (a : α)
    (b : β) (e : α × β) :
    e ∈ alInsert l a b ↔ e = (a, b) ∨ (e ∈ l ∧ e.1 ≠ a) := by
  simp [alInsert, mem_alRemove]

theorem alLookup_isSome_of_mem {α β : Type} [DecidableEq α]
    {l : List (α × β)} {e : α × β} (h : e ∈ l) : (alLookup l e.1).isSome := by
  induction l with
  | nil => simp at h
  | cons e' t ih =>
    obtain ⟨a', b'⟩ := e'
    rcases List.mem_cons.mp h with rfl | h
    · simp [alLookup]
    · by_cases h2 : a' = e.1 <;> simp [alLookup, h2, ih h]

theorem mem_of_alLookup_eq_some {α β : Type} [DecidableEq α]
    {l : List (α × β)} {a : α} {b : β} (h : alLookup l a = some b) :
    (a, b) ∈ l := by
  induction l with
  | nil => simp [alLookup] at h
  | cons e t ih =>
    obtain ⟨a', b'⟩ := e
    by_cases h2 : a' = a
    · subst h2
      simp [alLookup] at h
      subst h
      exact List.mem_cons_self _ _
    · simp [alLookup, h2] at h
      exact List.mem_cons_of_mem _ (ih h)

/-! ## Claims C9, C10, C8, C5 -/

/-- C9: for every root and every path whose components after an optional
leading root marker are equal, `prepare_key` maps the marker-bearing form
and the literal form to the same normalized path (the root's components
followed by the remaining components), so `get_by` on either form runs on
the same cache entry; logical keys are mapped to themselves unchanged. -/
theorem prepare_key_root_substitution :
    (∀ (root rest : RPath), rest.head? ≠ some Component.rootDir →
        vfs_substite_path (Component.rootDir :: rest) root = root ++ rest ∧
        vfs_substite_path rest root = root ++ rest ∧
        (DepKey.path (Component.rootDir :: rest)).prepare_key root =
          (DepKey.path rest).prepare_key root) ∧
    (∀ (s : String) (root : RPath),
        (DepKey.logical s).prepare_key root = .logical s) ∧
    (∀ (V C : Type) (st : Storage V) (load : LoadFn V C) (tag : Tag) (ctx : C)
        (rest : RPath), rest.head? ≠ some Component.rootDir →
        st.get_by load (DepKey.path (Component.rootDir :: rest)) tag ctx =
          st.get_by load (DepKey.path rest) tag ctx) := by
  have hlit : ∀ (root rest : RPath), rest.head? ≠ some Component.rootDir →
      vfs_substite_path rest root = root ++ rest := by
    intro root rest h
    cases rest with
    | nil => rfl
    | cons c t =>
      cases c with
      | rootDir => simp at h
      | normal s => rfl
  refine ⟨fun root rest h => ⟨rfl, hlit root rest h, ?_⟩, fun s root => rfl,
    fun V C st load tag ctx rest h => ?_⟩
  · show DepKey.path (vfs_substite_path (Component.rootDir :: rest) root) =
      DepKey.path (vfs_substite_path rest root)
    rw [hlit root rest h]
    rfl
  · have hk : (DepKey.path (Component.rootDir :: rest)).prepare_key st.canon_root =
        (DepKey.path rest).prepare_key st.canon_root := by
      show DepKey.path (vfs_substite_path (Component.rootDir :: rest) st.canon_root) =
        DepKey.path (vfs_substite_path rest st.canon_root)
      rw [hlit st.canon_root rest h]
      rfl
    simp only [Storage.get_by, hk]

/-- Witness for C9 at a concrete root and path. -/
theorem prepare_key_root_substitution_witness :
    (DepKey.path [Component.rootDir, Component.normal "foo"]).prepare_key
        [Component.rootDir, Component.normal "r"] =
      (DepKey.path [Component.normal "foo"]).prepare_key
        [Component.rootDir, Component.normal "r"] :=
  (prepare_key_root_substitution.1 [Component.rootDir, Component.normal "r"]
    [Component.normal "foo"] (by decide)).2.2

/-- C10: `Store::new` fails (with `RootDoesNotExist`) exactly when
canonicalizing the configured root fails; the result does not depend on
the outcome of `watcher.watch`, and on success the store holds an empty
storage rooted at the canonicalized root. -/
theorem store_new_spec :
    ∀ (V : Type) (root : RPath) (canon : Option RPath) (w w' : Bool),
    ((StoreNew V root canon w).toBool = false ↔ canon = none) ∧
    (canon = none → StoreNew V root canon w = .error (.rootDoesNotExist root)) ∧
    StoreNew V root canon w = StoreNew V root canon w' ∧
    (∀ cr, canon = some cr →
        StoreNew V root canon w = .ok (Storage.new V cr, [])) := by
  intro V root canon w w'
  cases canon <;> simp [StoreNew, Except.toBool]

/-- Witness for C10 at a concrete root. -/
theorem store_new_spec_witness :
    StoreNew Nat [] (some [Component.rootDir]) true =
      .ok (Storage.new Nat [Component.rootDir], []) :=
  (store_new_spec Nat [] (some [Component.rootDir]) true false).2.2.2
    [Component.rootDir] rfl

/-- C8: on a first-time `get_by` (cache miss) whose loader invocation
fails, the loader error is propagated unchanged as the `ResError` variant
and nothing is installed: the resulting storage and context are exactly
the ones the loader left behind. -/
theorem get_by_loader_failure :
    ∀ (V C : Type) (st : Storage V) (load : LoadFn V C) (key : DepKey)
      (tag : Tag) (ctx : C) (e : String) (st' : Storage V) (ctx' : C),
    alLookup st.cache (key.prepare_key st.canon_root, tag) = none →
    load (key.prepare_key st.canon_root) st ctx = (.error e, st', ctx') →
    st.get_by load key tag ctx = (.error (.resError e), st', ctx') := by
  intro V C st load key tag ctx e st' ctx' hmiss hload
  simp [Storage.get_by, hmiss, hload]

/-- Witness for C8: a failing loader on an empty storage. -/
theorem get_by_loader_failure_witness :
    (Storage.new Nat []).get_by
        (fun _ st ctx => (Except.error "boom", st, ctx))
        (DepKey.logical "k") 0 () =
      (.error (.resError "boom"), Storage.new Nat [], ()) :=
  get_by_loader_failure Nat Unit (Storage.new Nat [])
    (fun _ st ctx => (Except.error "boom", st, ctx))
    (DepKey.logical "k") 0 () "boom" (Storage.new Nat []) () rfl rfl

/-- C5: invoking the stored reload closure of an installed entry either
succeeds — the newly loaded value is moved into the handle's cell and
success is reported, all other cells being exactly the ones the loader
left — or fails — the state is exactly the one the loader left (the
handle's contents untouched by the closure) and the loader error is
reported upward; the match on the loader's result admits no third
outcome. -/
theorem reload_closure_spec :
    ∀ (V C : Type) [Inhabited V] (rl : Reloaders V C) (md : ResMetaData)
      (st : Storage V) (ctx : C),
    (∀ r st' ctx',
        rl md.tag (heapGet st.heap md.cell) md.key st ctx = (.ok r, st', ctx') →
        runOnReload rl md st ctx =
          (.ok (), { st' with heap := st'.heap.set md.cell r }, ctx') ∧
        (md.cell < st'.heap.length → heapGet (st'.heap.set md.cell r) md.cell = r) ∧
        (∀ i, i ≠ md.cell →
          heapGet (st'.heap.set md.cell r) i = heapGet st'.heap i)) ∧
    (∀ e st' ctx',
        rl md.tag (heapGet st.heap md.cell) md.key st ctx = (.error e, st', ctx') →
        runOnReload rl md st ctx = (.error e, st', ctx')) := by
  intro V C _ rl md st ctx
  constructor
  · intro r st' ctx' h
    refine ⟨by simp [runOnReload, h], fun hlt => ?_, fun i hi => ?_⟩
    · rw [heapGet, List.getD_eq_getElem?_getD, List.getElem?_set_self']
      simp [hlt]
    · rw [heapGet, heapGet, List.getD_eq_getElem?_getD,
        List.getD_eq_getElem?_getD, List.getElem?_set_ne (Ne.symm hi)]
  · intro e st' ctx' h
    simp [runOnReload, h]

/-- Witness for C5: a concrete entry, with one succeeding and one failing
reload function. -/
theorem reload_closure_spec_witness :
    runOnReload (V := Nat) (C := Unit)
        (fun _ v _ st ctx => (Except.ok (v + 1), st, ctx)) ⟨0, DepKey.logical "k", 0⟩
        { Storage.new Nat [] with heap := [5] } () =
      (.ok (), { Storage.new Nat [] with heap := [6] }, ()) ∧
    runOnReload (V := Nat) (C := Unit)
        (fun _ _ _ st ctx => (Except.error "bad", st, ctx)) ⟨0, DepKey.logical "k", 0⟩
        { Storage.new Nat [] with heap := [5] } () =
      (.error "bad", { Storage.new Nat [] with heap := [5] }, ()) :=
  ⟨((reload_closure_spec Nat Unit
        (fun _ v _ st ctx => (Except.ok (v + 1), st, ctx)) ⟨0, DepKey.logical "k", 0⟩
        { Storage.new Nat [] with heap := [5] } ()).1 6
      { Storage.new Nat [] with heap := [5] } () rfl).1,
    (reload_closure_spec Nat Unit
        (fun _ _ _ st ctx => (Except.error "bad", st, ctx)) ⟨0, DepKey.logical "k", 0⟩
        { Storage.new Nat [] with heap := [5] } ()).2 "bad"
      { Storage.new Nat [] with heap := [5] } () rfl⟩

/-! ## Characterization helpers for `inject` and `get_by` -/

theorem inject_present {V : Type} (st : Storage V) (key : DepKey) (tag : Tag)
    (v : V) (deps : List DepKey) (h : (alLookup st.metadata key).isSome) :
    st.inject key tag v deps = .error (.alreadyRegisteredKey key) := by
  simp [Storage.inject, h]

theorem inject_absent {V : Type} (st : Storage V) (key : DepKey) (tag : Tag)
    (v : V) (deps : List DepKey) (h : ¬ (alLookup st.metadata key).isSome) :
    st.inject key tag v deps = .ok (st.heap.length,
      { st with
          cache := alInsert st.cache (key, tag) st.heap.length,
          deps := deps.foldl
            (fun dm dep => depsPush dm (dep.prepare_key st.canon_root) key) st.deps,
          metadata := alInsert st.metadata key ⟨st.heap.length, key, tag⟩,
          heap := st.heap ++ [v] }) := by
  simp [Storage.inject, h]

theorem get_by_eq {V C : Type} (st : Storage V) (load : LoadFn V C)
    (key : DepKey) (tag : Tag) (ctx : C) :
    st.get_by load key tag ctx =
      match alLookup st.cache (key.prepare_key st.canon_root, tag) with
      | some resource => (.ok resource, st, ctx)
      | none =>
        match load (key.prepare_key st.canon_root) st ctx with
        | (.error e, st', ctx') => (.error (.resError e), st', ctx')
        | (.ok (v, deps), st', ctx') =>
          match st'.inject (key.prepare_key st.canon_root) tag v deps with
          | .error e => (.error (.storeError e), st', ctx')
          | .ok (cell, st'') => (.ok cell, st'', ctx') := rfl

theorem get_by_hit {V C : Type} {st : Storage V} {load : LoadFn V C}
    {key : DepKey} {tag : Tag} {ctx : C} {r : Nat}
    (hc : alLookup st.cache (key.prepare_key st.canon_root, tag) = some r) :
    st.get_by load key tag ctx = (.ok r, st, ctx) := by
  rw [get_by_eq, hc]

theorem get_by_miss_err {V C : Type} {st st' : Storage V} {load : LoadFn V C}
    {key : DepKey} {tag : Tag} {ctx ctx' : C} {e : String}
    (hc : alLookup st.cache (key.prepare_key st.canon_root, tag) = none)
    (hl : load (key.prepare_key st.canon_root) st ctx = (.error e, st', ctx')) :
    st.get_by load key tag ctx = (.error (.resError e), st', ctx') := by
  rw [get_by_eq, hc, hl]

theorem get_by_miss_ok {V C : Type} {st st' : Storage V} {load : LoadFn V C}
    {key : DepKey} {tag : Tag} {ctx ctx' : C} {v : V} {deps : List DepKey}
    (hc : alLookup st.cache (key.prepare_key st.canon_root, tag) = none)
    (hl : load (key.prepare_key st.canon_root) st ctx = (.ok (v, deps), st', ctx')) :
    st.get_by load key tag ctx =
      match st'.inject (key.prepare_key st.canon_root) tag v deps with
      | .error e => (.error (.storeError e), st', ctx')
      | .ok (cell, st'') => (.ok cell, st'', ctx') := by
  rw [get_by_eq, hc, hl]

/-! ## Coherence invariants

The spec's per-key invariant ("for each key, at most one entry, at most
one handle identity") is stated on the cache; `CacheBackedByMeta` is the
auxiliary fact making `inject`'s metadata guard protect the cache, with an
exception list for the keys whose metadata `reload_dirties` has
temporarily removed. -/

/-- Every cache entry's key is registered in the metadata map, except
possibly for keys in the list `S` (those being reloaded right now). -/
def CacheBackedByMeta {V : Type} (S : List DepKey) (st : Storage V) : Prop :=
  ∀ e ∈ st.cache, (alLookup st.metadata e.1.1).isSome ∨ e.1.1 ∈ S

/-- Each key owns at most one cache entry (hence at most one handle
identity), whatever the type tag. -/
def AtMostOnePerKey {V : Type} (st : Storage V) : Prop :=
  ∀ e1 ∈ st.cache, ∀ e2 ∈ st.cache, e1.1.1 = e2.1.1 → e1 = e2

/-- Coherence up to an exception list of keys under reload. -/
def CoherentExc {V : Type} (S : List DepKey) (st : Storage V) : Prop :=
  CacheBackedByMeta S st ∧ AtMostOnePerKey st

/-- Full coherence of a storage. -/
def Coherent {V : Type} (st : Storage V) : Prop := CoherentExc [] st

/-! ## Claim C1 -/

/-- C1: `inject` fails with `AlreadyRegisteredKey` exactly when an entry
already exists at the key (and succeeds otherwise); consequently, in any
cache-backed storage a successful `get_by` leaves the prepared key
registered, and a subsequent `get_by` at the same key with a distinct tag
that misses the cache and whose loader succeeds (leaving the key
registered, as every loader acting through the public API does) fails with
`AlreadyRegisteredKey` and overwrites nothing: the storage is exactly the
one the loader produced. -/
theorem inject_already_registered :
    (∀ (V : Type) (st : Storage V) (key : DepKey) (tag : Tag) (v : V)
        (deps : List DepKey),
        (st.inject key tag v deps = .error (.alreadyRegisteredKey key) ↔
          (alLookup st.metadata key).isSome) ∧
        (¬ (alLookup st.metadata key).isSome →
          ∃ c st', st.inject key tag v deps = .ok (c, st'))) ∧
    (∀ (V C : Type) (st : Storage V) (load : LoadFn V C) (key : DepKey)
        (tag : Tag) (ctx : C) (c : Nat) (st' : Storage V) (ctx' : C),
        CacheBackedByMeta [] st →
        st.get_by load key tag ctx = (.ok c, st', ctx') →
        (alLookup st'.metadata (key.prepare_key st.canon_root)).isSome) ∧
    (∀ (V C : Type) (st : Storage V) (load : LoadFn V C) (key : DepKey)
        (tag : Tag) (ctx : C) (v : V) (deps : List DepKey) (st' : Storage V)
        (ctx' : C),
        alLookup st.cache (key.prepare_key st.canon_root, tag) = none →
        load (key.prepare_key st.canon_root) st ctx = (.ok (v, deps), st', ctx') →
        (alLookup st'.metadata (key.prepare_key st.canon_root)).isSome →
        st.get_by load key tag ctx =
          (.error (.storeError (.alreadyRegisteredKey
            (key.prepare_key st.canon_root))), st', ctx')) := by
  refine ⟨fun V st key tag v deps => ⟨?_, ?_⟩, ?_, ?_⟩
  · constructor
    · intro h
      by_contra hn
      rw [inject_absent st key tag v deps hn] at h
      exact absurd h (by simp)
    · intro h
      exact inject_present st key tag v deps h
  · intro h
    exact ⟨_, _, inject_absent st key tag v deps h⟩
  · intro V C st load key tag ctx c st' ctx' hcoh hget
    cases hc : alLookup st.cache (key.prepare_key st.canon_root, tag) with
    | some cell =>
      rw [get_by_hit hc] at hget
      injection hget with h1 h2
      injection h2 with h2 h3
      subst h2
      rcases hcoh _ (mem_of_alLookup_eq_some hc) with h | h
      · exact h
      · simp at h
    | none =>
      rcases hl : load (key.prepare_key st.canon_root) st ctx with ⟨r, stl, ctxl⟩
      cases r with
      | error e =>
        rw [get_by_miss_err hc hl] at hget
        exact absurd hget (by simp)
      | ok p =>
        obtain ⟨v, deps⟩ := p
        rw [get_by_miss_ok hc hl] at hget
        by_cases hm : (alLookup stl.metadata (key.prepare_key st.canon_root)).isSome
        · rw [inject_present stl _ tag v deps hm] at hget
          exact absurd hget (by simp)
        · rw [inject_absent stl _ tag v deps hm] at hget
          injection hget with h1 h2
          injection h2 with h2 h3
          subst h2
          simp [alLookup_alInsert_self]
  · intro V C st load key tag ctx v deps st' ctx' hc hl hm
    rw [get_by_miss_ok hc hl, inject_present st' _ tag v deps hm]

/-- Concrete storage holding one installed entry at the logical key `"k"`
with tag `0`: the result of `inject` on an empty storage. -/
def stOne : Storage Nat :=
  { canon_root := [],
    cache := [((DepKey.logical "k", 0), 0)],
    deps := [],
    metadata := [(DepKey.logical "k", ⟨0, DepKey.logical "k", 0⟩)],
    heap := [10] }

/-- Witness for C1: a `get_by` with a fresh tag at an installed key, whose
loader succeeds, fails with `AlreadyRegisteredKey` and changes nothing. -/
theorem inject_already_registered_witness :
    stOne.get_by (fun _ st ctx => (Except.ok ((20 : Nat), ([] : List DepKey)), st, ctx))
        (DepKey.logical "k") 1 () =
      (.error (.storeError (.alreadyRegisteredKey (DepKey.logical "k"))), stOne, ()) :=
  inject_already_registered.2.2 Nat Unit stOne
    (fun _ st ctx => (Except.ok ((20 : Nat), ([] : List DepKey)), st, ctx))
    (DepKey.logical "k") 1 () 20 [] stOne ()
    (by decide) rfl (by decide)

/-! ## Claim C4 -/

theorem get_proxied_eq {V C : Type} (st : Storage V) (load : LoadFn V C)
    (key : DepKey) (tag : Tag) (proxy : Unit → V) (ctx : C) :
    st.get_proxied load key tag proxy ctx =
      match st.get_by load key tag ctx with
      | (.ok resource, st', ctx') => (.ok resource, st', ctx')
      | (.error _, st', ctx') =>
        match st'.inject key tag (proxy ()) [] with
        | .ok (cell, st'') => (.ok cell, st'', ctx')
        | .error e => (.error e, st', ctx') := rfl

/-- C4 (amended): `get_proxied`/`get_proxied_by` first call `get`/`get_by`;
on any failure of `get_by` — a loader error or a store error — they invoke
the proxy closure and attempt to install the proxy value under the raw
(unprepared) key with no dependencies, returning a handle to it on
success, so the caller observes only a `StoreError`; when `get_by`
succeeds, the proxy closure is not invoked and nothing extra is
installed. -/
theorem get_proxied_spec :
    (∀ (V C : Type) (st st' : Storage V) (load : LoadFn V C) (key : DepKey)
        (tag : Tag) (ctx ctx' : C) (c : Nat) (proxy proxy' : Unit → V),
        st.get_by load key tag ctx = (.ok c, st', ctx') →
        st.get_proxied load key tag proxy ctx = (.ok c, st', ctx') ∧
        st.get_proxied load key tag proxy ctx =
          st.get_proxied load key tag proxy' ctx) ∧
    (∀ (V C : Type) (st st' : Storage V) (load : LoadFn V C) (key : DepKey)
        (tag : Tag) (ctx ctx' : C) (e : StoreErrorOr) (proxy : Unit → V),
        st.get_by load key tag ctx = (.error e, st', ctx') →
        st.get_proxied load key tag proxy ctx =
          match st'.inject key tag (proxy ()) [] with
          | .ok (cell, st'') => (.ok cell, st'', ctx')
          | .error e' => (.error e', st', ctx')) ∧
    (∀ (V C : Type) (st st' : Storage V) (load : LoadFn V C) (key : DepKey)
        (tag : Tag) (ctx ctx' : C) (e : StoreErrorOr) (proxy : Unit → V),
        st.get_by load key tag ctx = (.error e, st', ctx') →
        ¬ (alLookup st'.metadata key).isSome →
        st.get_proxied load key tag proxy ctx =
          (.ok st'.heap.length,
            { st' with
                cache := alInsert st'.cache (key, tag) st'.heap.length,
                metadata := alInsert st'.metadata key
                  ⟨st'.heap.length, key, tag⟩,
                heap := st'.heap ++ [proxy ()] }, ctx')) := by
  refine ⟨?_, ?_, ?_⟩
  · intro V C st st' load key tag ctx ctx' c proxy proxy' hget
    rw [get_proxied_eq, hget, get_proxied_eq, hget]
    exact ⟨rfl, rfl⟩
  · intro V C st st' load key tag ctx ctx' e proxy hget
    rw [get_proxied_eq, hget]
  · intro V C st st' load key tag ctx ctx' e proxy hget hm
    rw [get_proxied_eq, hget]
    show (match st'.inject key tag (proxy ()) [] with
      | .ok (cell, st'') => (Except.ok cell, st'', ctx')
      | .error e' => (Except.error e', st', ctx')) = _
    rw [inject_absent st' key tag (proxy ()) [] hm]
    rfl

/-- Witness for C4: a hit needs no proxy; a failing loader on an empty
storage installs the proxy value under the key. -/
theorem get_proxied_spec_witness :
    stOne.get_proxied (fun _ st ctx => (Except.error "nope", st, ctx))
        (DepKey.logical "k") 0 (fun _ => (99 : Nat)) () = (.ok 0, stOne, ()) ∧
    (Storage.new Nat []).get_proxied (fun _ st ctx => (Except.error "nope", st, ctx))
        (DepKey.logical "k") 0 (fun _ => (99 : Nat)) () =
      (.ok 0,
        { canon_root := [],
          cache := [((DepKey.logical "k", 0), 0)],
          deps := [],
          metadata := [(DepKey.logical "k", ⟨0, DepKey.logical "k", 0⟩)],
          heap := [99] }, ()) :=
  ⟨(get_proxied_spec.1 Nat Unit stOne stOne
      (fun _ st ctx => (Except.error "nope", st, ctx)) (DepKey.logical "k") 0
      () () 0 (fun _ => (99 : Nat)) (fun _ => (99 : Nat)) rfl).1,
    get_proxied_spec.2.2 Nat Unit (Storage.new Nat []) (Storage.new Nat [])
      (fun _ st ctx => (Except.error "nope", st, ctx)) (DepKey.logical "k") 0
      () () (.resError "nope") (fun _ => (99 : Nat)) rfl (by decide)⟩

/-- Canonicalized root used by the concrete deviation scenarios. -/
def rootR : RPath := [Component.rootDir, Component.normal "r"]

/-- Raw (virtual-relative) form of the key `foo`. -/
def kRaw : DepKey := DepKey.path [Component.normal "foo"]

/-- Prepared form of the key `foo` under the root `/r`. -/
def kPrep : DepKey :=
  DepKey.path [Component.rootDir, Component.normal "r", Component.normal "foo"]

/-- Concrete storage rooted at `/r` with one installed entry at the
prepared key `/r/foo` and tag `0`. -/
def stTwo : Storage Nat :=
  { canon_root := rootR,
    cache := [((kPrep, 0), 0)],
    deps := [],
    metadata := [(kPrep, ⟨0, kPrep, 0⟩)],
    heap := [10] }

/-- Loader that always succeeds with the value `20` and no dependencies,
used by the deviation scenarios. -/
def ldOk : LoadFn Nat Unit := fun _ st ctx => (Except.ok (20, []), st, ctx)

/-- Counterexample to C4 as stated: at `stTwo`, a `get_proxied` with a
fresh tag and a loader that succeeds (the loader call made by `get_by`
returns `ok`) still ends in `get_by` failing with the store error
`AlreadyRegisteredKey`, whereupon the proxy value `99` is installed — so
the proxy is installed on a non-loader failure, contradicting "on loader
failure only". -/
theorem get_proxied_counterexample :
    (ldOk kPrep stTwo ()).1 = Except.ok ((20 : Nat), ([] : List DepKey)) ∧
    stTwo.get_by ldOk kRaw 1 () =
      (.error (.storeError (.alreadyRegisteredKey kPrep)), stTwo, ()) ∧
    (stTwo.get_proxied ldOk kRaw 1 (fun _ => (99 : Nat)) ()).1 = .ok 1 ∧
    heapGet (stTwo.get_proxied ldOk kRaw 1 (fun _ => (99 : Nat)) ()).2.1.heap 1 = 99 := by
  refine ⟨rfl, ?_, ?_, ?_⟩ <;> rfl

/-! ## Claim C3 -/

theorem alLookup_depsPush_self (dm : List (DepKey × List DepKey)) (x k : DepKey) :
    (alLookup (depsPush dm x k) x).isSome := by
  unfold depsPush
  cases h : alLookup dm x <;> simp [alLookup_alInsert_self]

theorem alLookup_depsPush_preserve (dm : List (DepKey × List DepKey))
    (x k a : DepKey) (h : (alLookup dm a).isSome) :
    (alLookup (depsPush dm x k) a).isSome := by
  by_cases hx : a = x
  · subst hx
    exact alLookup_depsPush_self dm a k
  · unfold depsPush
    cases h2 : alLookup dm x <;> rw [alLookup_alInsert_ne _ _ _ _ hx] <;> exact h

theorem foldl_depsPush_preserve (t : List DepKey) (dm : List (DepKey × List DepKey))
    (root : RPath) (k a : DepKey) (h : (alLookup dm a).isSome) :
    (alLookup (t.foldl (fun dm dep => depsPush dm (dep.prepare_key root) k) dm)
      a).isSome := by
  induction t generalizing dm with
  | nil => exact h
  | cons x tl ih => exact ih _ (alLookup_depsPush_preserve dm _ k a h)

theorem foldl_depsPush_mem (deps : List DepKey) (dm : List (DepKey × List DepKey))
    (root : RPath) (k d : DepKey) (hd : d ∈ deps) :
    (alLookup (deps.foldl (fun dm dep => depsPush dm (dep.prepare_key root) k) dm)
      (d.prepare_key root)).isSome := by
  induction deps generalizing dm with
  | nil => simp at hd
  | cons x t ih =>
    rcases List.mem_cons.mp hd with rfl | hd'
    · exact foldl_depsPush_preserve t _ root k _ (alLookup_depsPush_self dm _ k)
    · exact ih _ hd'

/-- C3 (amended): `get_by` performs its cache lookup under the
`prepare_key`-normalized key and, on a first-time load, installs the cache
entry and metadata under the normalized key and the dependency edges under
normalized dependency keys; however, the proxy fallback of
`get_proxied`/`get_proxied_by` injects under the raw (unnormalized) key,
and `dequeue_fs_events` forms the key from the raw filesystem event path
and compares and inserts it without normalizing against the root. -/
theorem key_normalization_spec :
    (∀ (V C : Type) (st : Storage V) (load : LoadFn V C) (key : DepKey)
        (tag : Tag) (ctx : C) (r : Nat),
        alLookup st.cache (key.prepare_key st.canon_root, tag) = some r →
        st.get_by load key tag ctx = (.ok r, st, ctx)) ∧
    (∀ (V C : Type) (st st' : Storage V) (load : LoadFn V C) (key : DepKey)
        (tag : Tag) (ctx ctx' : C) (v : V) (deps : List DepKey),
        alLookup st.cache (key.prepare_key st.canon_root, tag) = none →
        load (key.prepare_key st.canon_root) st ctx = (.ok (v, deps), st', ctx') →
        ¬ (alLookup st'.metadata (key.prepare_key st.canon_root)).isSome →
        ∃ stInst, st.get_by load key tag ctx = (.ok st'.heap.length, stInst, ctx') ∧
          alLookup stInst.cache (key.prepare_key st.canon_root, tag) =
            some st'.heap.length ∧
          (alLookup stInst.metadata (key.prepare_key st.canon_root)).isSome ∧
          ∀ d ∈ deps, (alLookup stInst.deps (d.prepare_key st'.canon_root)).isSome) ∧
    (∀ (V C : Type) (st st' : Storage V) (load : LoadFn V C) (key : DepKey)
        (tag : Tag) (ctx ctx' : C) (e : StoreErrorOr) (proxy : Unit → V),
        st.get_by load key tag ctx = (.error e, st', ctx') →
        ¬ (alLookup st'.metadata key).isSome →
        ∃ st'', st.get_proxied load key tag proxy ctx =
            (.ok st'.heap.length, st'', ctx') ∧
          alLookup st''.cache (key, tag) = some st'.heap.length) ∧
    (∀ (V C : Type) (disc : DiscoveryFn V C) (p : RPath) (dirties : List DepKey)
        (st : Storage V) (ctx : C),
        ((alLookup st.metadata (DepKey.path p)).isSome →
          dequeue_fs_events disc [FsEvent.write p] dirties st ctx =
            (if DepKey.path p ∈ dirties then dirties
              else dirties ++ [DepKey.path p], st, ctx)) ∧
        (¬ (alLookup st.metadata (DepKey.path p)).isSome →
          dequeue_fs_events disc [FsEvent.write p] dirties st ctx =
            (dirties, (disc p st ctx).1, (disc p st ctx).2))) := by
  refine ⟨?_, ?_, ?_, ?_⟩
  · intro V C st load key tag ctx r hc
    exact get_by_hit hc
  · intro V C st st' load key tag ctx ctx' v deps hc hl hm
    have heq := get_by_miss_ok hc hl
    rw [inject_absent st' _ tag v deps hm] at heq
    refine ⟨{ st' with
        cache := alInsert st'.cache (key.prepare_key st.canon_root, tag)
          st'.heap.length,
        deps := deps.foldl (fun dm dep => depsPush dm
          (dep.prepare_key st'.canon_root) (key.prepare_key st.canon_root))
          st'.deps,
        metadata := alInsert st'.metadata (key.prepare_key st.canon_root)
          ⟨st'.heap.length, key.prepare_key st.canon_root, tag⟩,
        heap := st'.heap ++ [v] }, heq, ?_, ?_, ?_⟩
    · exact alLookup_alInsert_self ..
    · simp [alLookup_alInsert_self]
    · intro d hd
      exact foldl_depsPush_mem deps st'.deps st'.canon_root
        (key.prepare_key st.canon_root) d hd
  · intro V C st st' load key tag ctx ctx' e proxy hget hm
    refine ⟨{ st' with
        cache := alInsert st'.cache (key, tag) st'.heap.length,
        metadata := alInsert st'.metadata key ⟨st'.heap.length, key, tag⟩,
        heap := st'.heap ++ [proxy ()] }, ?_, ?_⟩
    · rw [get_proxied_eq, hget]
      show (match st'.inject key tag (proxy ()) [] with
        | .ok (cell, st'') => (Except.ok cell, st'', ctx')
        | .error e' => (Except.error e', st', ctx')) = _
      rw [inject_absent st' key tag (proxy ()) [] hm]
      rfl
    · exact alLookup_alInsert_self ..
  · intro V C disc p dirties st ctx
    constructor
    · intro hm
      simp [dequeue_fs_events, hm]
    · intro hm
      simp [dequeue_fs_events, hm]

/-- Loader that always fails with the error `"nope"`, used by the
deviation scenarios. -/
def ldFail : LoadFn Nat Unit := fun _ st ctx => (Except.error "nope", st, ctx)

/-- Counterexample to C3 as stated: at `stTwo` the proxy fallback of
`get_proxied` installs the proxy under the raw key `foo` and not under the
normalized key `/r/foo`; and `dequeue_fs_events`, fed an event for the
path `foo` whose normalized key `/r/foo` is installed, compares the raw
key instead, finds no metadata and so marks nothing dirty. -/
theorem key_normalization_counterexample :
    alLookup (stTwo.get_proxied ldFail kRaw 1 (fun _ => (99 : Nat)) ()).2.1.cache
        (kRaw.prepare_key stTwo.canon_root, 1) = none ∧
    alLookup (stTwo.get_proxied ldFail kRaw 1 (fun _ => (99 : Nat)) ()).2.1.cache
        (kRaw, 1) = some 1 ∧
    (alLookup stTwo.metadata ((DepKey.path [Component.normal "foo"]).prepare_key
        stTwo.canon_root)).isSome = true ∧
    dequeue_fs_events (fun _ st ctx => (st, ctx))
        [FsEvent.write [Component.normal "foo"]] [] stTwo () = ([], stTwo, ()) := by
  refine ⟨?_, ?_, ?_, ?_⟩ <;> rfl

/-- Witness for C3: a cache hit at the normalized key, and a raw-path
event whose key is found in the metadata map and marked dirty. -/
theorem key_normalization_spec_witness :
    stOne.get_by ldFail (DepKey.logical "k") 0 () = (.ok 0, stOne, ()) ∧
    dequeue_fs_events (fun _ st ctx => (st, ctx))
        [FsEvent.write [Component.rootDir, Component.normal "r",
          Component.normal "foo"]] [] stTwo () = ([kPrep], stTwo, ()) :=
  ⟨key_normalization_spec.1 Nat Unit stOne ldFail (DepKey.logical "k") 0 () 0 rfl,
    ((key_normalization_spec.2.2.2 Nat Unit (fun _ st ctx => (st, ctx))
        [Component.rootDir, Component.normal "r", Component.normal "foo"]
        [] stTwo ()).1 rfl).trans rfl⟩

/-! ## Claim C6 -/

theorem reloadDep_trace {V C : Type} [Inhabited V] (rl : Reloaders V C)
    (acc : Storage V × C × List ReloadEvent) (d : DepKey) :
    (reloadDep rl acc d).2.2 = acc.2.2 ∨
    ∃ b, (reloadDep rl acc d).2.2 = acc.2.2 ++ [⟨d, true, true, b⟩] := by
  obtain ⟨st, ctx, evs⟩ := acc
  cases h : alLookup st.metadata d with
  | none =>
    left
    simp [reloadDep, h]
  | some obs =>
    right
    rcases hr : runOnReload rl obs { st with metadata := alRemove st.metadata d }
      ctx with ⟨r, st2, ctx2⟩
    exact ⟨r.toBool, by simp [reloadDep, h, hr, alLookup_alRemove_self]⟩

theorem reloadDep_foldl_trace {V C : Type} [Inhabited V] (rl : Reloaders V C)
    (deps : List DepKey) (acc : Storage V × C × List ReloadEvent) :
    ∃ suffix, (deps.foldl (reloadDep rl) acc).2.2 = acc.2.2 ++ suffix ∧
      (suffix.map ReloadEvent.key).Sublist deps ∧
      ∀ x ∈ suffix, x.isDependent = true ∧ x.removedAtCall = true := by
  induction deps generalizing acc with
  | nil => exact ⟨[], by simp, by simp, by simp⟩
  | cons d t ih =>
    obtain ⟨suffix, hs, hsub, hall⟩ := ih (reloadDep rl acc d)
    rcases reloadDep_trace rl acc d with h0 | ⟨b, h0⟩
    · refine ⟨suffix, ?_, hsub.cons d, hall⟩
      rw [List.foldl_cons, hs, h0]
    · refine ⟨⟨d, true, true, b⟩ :: suffix, ?_, ?_, ?_⟩
      · rw [List.foldl_cons, hs, h0, List.append_assoc]
        rfl
      · simpa using hsub.cons₂ d
      · intro x hx
        rcases List.mem_cons.mp hx with rfl | hx'
        · exact ⟨rfl, rfl⟩
        · exact hall x hx'

theorem reloadOne_eq_false {V C : Type} [Inhabited V] {rl : Reloaders V C}
    {st : Storage V} {ctx : C} {k : DepKey} {md : ResMetaData}
    {r : Except String Unit} {st2 : Storage V} {ctx2 : C}
    (h : alLookup st.metadata k = some md)
    (hr : runOnReload rl md { st with metadata := alRemove st.metadata k } ctx =
      (r, st2, ctx2))
    (hb : r.toBool = false) :
    reloadOne rl st ctx k =
      ({ st2 with metadata := alInsert st2.metadata k md }, ctx2,
        [⟨k, false, true, false⟩]) := by
  simp [reloadOne, h, hr, hb, alLookup_alRemove_self]

theorem reloadOne_eq_true_none {V C : Type} [Inhabited V] {rl : Reloaders V C}
    {st : Storage V} {ctx : C} {k : DepKey} {md : ResMetaData}
    {r : Except String Unit} {st2 : Storage V} {ctx2 : C}
    (h : alLookup st.metadata k = some md)
    (hr : runOnReload rl md { st with metadata := alRemove st.metadata k } ctx =
      (r, st2, ctx2))
    (hb : r.toBool = true) (hd : alLookup st2.deps k = none) :
    reloadOne rl st ctx k =
      ({ st2 with metadata := alInsert st2.metadata k md }, ctx2,
        [⟨k, false, true, true⟩]) := by
  simp [reloadOne, h, hr, hb, hd, alLookup_alRemove_self]

theorem reloadOne_eq_true_some {V C : Type} [Inhabited V] {rl : Reloaders V C}
    {st : Storage V} {ctx : C} {k : DepKey} {md : ResMetaData}
    {r : Except String Unit} {st2 : Storage V} {ctx2 : C} {deps : List DepKey}
    (h : alLookup st.metadata k = some md)
    (hr : runOnReload rl md { st with metadata := alRemove st.metadata k } ctx =
      (r, st2, ctx2))
    (hb : r.toBool = true) (hd : alLookup st2.deps k = some deps) :
    reloadOne rl st ctx k =
      ({ (deps.foldl (reloadDep rl) (st2, ctx2, [])).1 with
          metadata := alInsert
            (deps.foldl (reloadDep rl) (st2, ctx2, [])).1.metadata k md },
        (deps.foldl (reloadDep rl) (st2, ctx2, [])).2.1,
        ⟨k, false, true, true⟩ ::
          (deps.foldl (reloadDep rl) (st2, ctx2, [])).2.2) := by
  rcases hf : deps.foldl (reloadDep rl) (st2, ctx2, ([] : List ReloadEvent))
    with ⟨st3, ctx3, evs⟩
  simp [reloadOne, h, hr, hb, hd, hf, alLookup_alRemove_self]

/-- C6: within one pass, for a dirty key `k` whose metadata is installed:
`k`'s reload closure runs first (with `k`'s metadata removed from the
storage passed to it), `k`'s metadata is reinserted afterwards; dependent
closures fire only when `k`'s own reload succeeded and, on success, the
fired portion of the trace is exactly the fold of the dependent-cascade
step over `deps_map[k]` (consulted after `k`'s reload), each dependent
invoked with its own metadata removed and reinserted right after, and the
keys fired form an in-order sublist of `deps_map[k]` — the cascade
reaches exactly the direct dependents and no deeper. -/
theorem reload_cascade_spec :
    (∀ (V C : Type) [Inhabited V] (rl : Reloaders V C) (st : Storage V)
        (ctx : C) (k : DepKey) (md : ResMetaData),
      alLookup st.metadata k = some md →
      ∃ r st2 ctx2,
        runOnReload rl md { st with metadata := alRemove st.metadata k } ctx =
          (r, st2, ctx2) ∧
        ∃ evs,
          (reloadOne rl st ctx k).2.2 = ⟨k, false, true, r.toBool⟩ :: evs ∧
          alLookup (reloadOne rl st ctx k).1.metadata k = some md ∧
          (r.toBool = false → evs = []) ∧
          (r.toBool = true → alLookup st2.deps k = none → evs = []) ∧
          (r.toBool = true → ∀ deps, alLookup st2.deps k = some deps →
            evs = (deps.foldl (reloadDep rl) (st2, ctx2, [])).2.2) ∧
          (evs.map ReloadEvent.key).Sublist ((alLookup st2.deps k).getD []) ∧
          (∀ x ∈ evs, x.isDependent = true ∧ x.removedAtCall = true)) ∧
    (∀ (V C : Type) [Inhabited V] (rl : Reloaders V C)
        (acc : Storage V × C × List ReloadEvent) (d : DepKey) (md' : ResMetaData),
      alLookup acc.1.metadata d = some md' →
      alLookup (reloadDep rl acc d).1.metadata d = some md') := by
  constructor
  · intro V C _ rl st ctx k md h
    rcases hr : runOnReload rl md { st with metadata := alRemove st.metadata k }
      ctx with ⟨r, st2, ctx2⟩
    refine ⟨r, st2, ctx2, rfl, ?_⟩
    cases hb : r.toBool
    · rw [reloadOne_eq_false h hr hb]
      exact ⟨[], rfl, by simp [alLookup_alInsert_self], fun _ => rfl,
        fun htrue => Bool.noConfusion htrue,
        fun htrue => Bool.noConfusion htrue, by simp, by simp⟩
    · cases hd : alLookup st2.deps k with
      | none =>
        rw [reloadOne_eq_true_none h hr hb hd]
        exact ⟨[], rfl, by simp [alLookup_alInsert_self],
          fun hfalse => Bool.noConfusion hfalse, fun _ _ => rfl,
          fun _ deps hdeps => Option.noConfusion hdeps, by simp, by simp⟩
      | some deps =>
        rw [reloadOne_eq_true_some h hr hb hd]
        obtain ⟨suffix, hs, hsub, hall⟩ :=
          reloadDep_foldl_trace rl deps (st2, ctx2, ([] : List ReloadEvent))
        refine ⟨(deps.foldl (reloadDep rl) (st2, ctx2, [])).2.2, rfl,
          by simp [alLookup_alInsert_self],
          fun hfalse => Bool.noConfusion hfalse,
          fun _ hnone => Option.noConfusion hnone,
          fun _ deps' hdeps' => ?_, ?_, ?_⟩
        · have hde : deps = deps' := by injection hdeps'
          rw [hde]
        · rw [hs]
          simpa using hsub
        · rw [hs]
          simpa using hall
  · intro V C _ rl acc d md' h
    obtain ⟨st, ctx, evs⟩ := acc
    simp only at h
    rcases hr : runOnReload rl md' { st with metadata := alRemove st.metadata d }
      ctx with ⟨r, st2, ctx2⟩
    simp [reloadDep, h, hr, alLookup_alInsert_self]

/-- Witness for C6: the identity reloader at the one-entry storage fires
`k` once, with no dependents. -/
theorem reload_cascade_spec_witness :
    (reloadOne (V := Nat) (C := Unit) (fun _ v _ st ctx => (Except.ok v, st, ctx))
        stOne () (DepKey.logical "k")).2.2 =
      [⟨DepKey.logical "k", false, true, true⟩] ∧
    alLookup (reloadDep (V := Nat) (C := Unit)
        (fun _ v _ st ctx => (Except.ok v, st, ctx))
        (stOne, (), []) (DepKey.logical "k")).1.metadata (DepKey.logical "k") =
      some ⟨0, DepKey.logical "k", 0⟩ :=
  ⟨by rfl,
    reload_cascade_spec.2 Nat Unit (fun _ v _ st ctx => (Except.ok v, st, ctx))
      (stOne, (), []) (DepKey.logical "k") ⟨0, DepKey.logical "k", 0⟩ rfl⟩

/-! ## Claim C7 -/

/-- Property every `Load::reload` implementation reachable through the
public API has: calls into the storage only ever add metadata (via
`inject`, which refuses present keys), so existing metadata bindings
survive a reload-closure invocation. -/
def MetaPreserve {V C : Type} (rl : Reloaders V C) : Prop :=
  ∀ (tag : Tag) (v : V) (key : DepKey) (st : Storage V) (ctx : C) (k' : DepKey)
    (md' : ResMetaData), alLookup st.metadata k' = some md' →
    alLookup (rl tag v key st ctx).2.1.metadata k' = some md'

theorem runOnReload_meta_preserve {V C : Type} [Inhabited V]
    (rl : Reloaders V C) (hp : MetaPreserve rl) (md : ResMetaData)
    (st : Storage V) (ctx : C) (k' : DepKey) (m : ResMetaData)
    (h : alLookup st.metadata k' = some m) :
    alLookup (runOnReload rl md st ctx).2.1.metadata k' = some m := by
  rcases hr : rl md.tag (heapGet st.heap md.cell) md.key st ctx with ⟨r, st', ctx'⟩
  have hm := hp md.tag (heapGet st.heap md.cell) md.key st ctx k' m h
  rw [hr] at hm
  simp only at hm
  cases r with
  | ok u => simpa [runOnReload, hr] using hm
  | error e => simpa [runOnReload, hr] using hm

theorem reloadDep_meta_preserve {V C : Type} [Inhabited V]
    (rl : Reloaders V C) (hp : MetaPreserve rl)
    (acc : Storage V × C × List ReloadEvent) (d a : DepKey) (m : ResMetaData)
    (h : alLookup acc.1.metadata a = some m) :
    alLookup (reloadDep rl acc d).1.metadata a = some m := by
  obtain ⟨st, ctx, evs⟩ := acc
  simp only at h
  cases hmd : alLookup st.metadata d with
  | none => simpa [reloadDep, hmd] using h
  | some obs =>
    rcases hr : runOnReload rl obs { st with metadata := alRemove st.metadata d }
      ctx with ⟨r, st2, ctx2⟩
    by_cases had : a = d
    · subst had
      rw [h] at hmd
      injection hmd with he
      subst he
      simp [reloadDep, h, hr, alLookup_alInsert_self]
    · have h1 : alLookup (alRemove st.metadata d) a = some m := by
        rw [alLookup_alRemove_ne _ _ _ had]
        exact h
      have h2 := runOnReload_meta_preserve rl hp obs
        { st with metadata := alRemove st.metadata d } ctx a m h1
      rw [hr] at h2
      simp only at h2
      simp [reloadDep, hmd, hr, alLookup_alInsert_ne _ _ _ _ had, h2]

theorem reloadDep_foldl_meta_preserve {V C : Type} [Inhabited V]
    (rl : Reloaders V C) (hp : MetaPreserve rl) (deps : List DepKey)
    (acc : Storage V × C × List ReloadEvent) (a : DepKey) (m : ResMetaData)
    (h : alLookup acc.1.metadata a = some m) :
    alLookup ((deps.foldl (reloadDep rl) acc)).1.metadata a = some m := by
  induction deps generalizing acc with
  | nil => exact h
  | cons d t ih => exact ih _ (reloadDep_meta_preserve rl hp acc d a m h)

theorem reloadOne_meta_preserve {V C : Type} [Inhabited V]
    (rl : Reloaders V C) (hp : MetaPreserve rl) (st : Storage V) (ctx : C)
    (x a : DepKey) (m : ResMetaData) (h : alLookup st.metadata a = some m) :
    alLookup (reloadOne rl st ctx x).1.metadata a = some m := by
  cases hmd : alLookup st.metadata x with
  | none => simpa [reloadOne, hmd] using h
  | some mdx =>
    rcases hr : runOnReload rl mdx { st with metadata := alRemove st.metadata x }
      ctx with ⟨r, st2, ctx2⟩
    by_cases hax : a = x
    · subst hax
      rw [h] at hmd
      injection hmd with he
      subst he
      cases hb : r.toBool
      · rw [reloadOne_eq_false h hr hb]
        simp [alLookup_alInsert_self]
      · cases hd : alLookup st2.deps a with
        | none =>
          rw [reloadOne_eq_true_none h hr hb hd]
          simp [alLookup_alInsert_self]
        | some deps =>
          rw [reloadOne_eq_true_some h hr hb hd]
          simp [alLookup_alInsert_self]
    · have h1 : alLookup (alRemove st.metadata x) a = some m := by
        rw [alLookup_alRemove_ne _ _ _ hax]
        exact h
      have h2 := runOnReload_meta_preserve rl hp mdx
        { st with metadata := alRemove st.metadata x } ctx a m h1
      rw [hr] at h2
      simp only at h2
      cases hb : r.toBool
      · rw [reloadOne_eq_false hmd hr hb]
        simp only
        rw [alLookup_alInsert_ne _ _ _ _ hax]
        exact h2
      · cases hd : alLookup st2.deps x with
        | none =>
          rw [reloadOne_eq_true_none hmd hr hb hd]
          simp only
          rw [alLookup_alInsert_ne _ _ _ _ hax]
          exact h2
        | some deps =>
          rw [reloadOne_eq_true_some hmd hr hb hd]
          have h3 := reloadDep_foldl_meta_preserve rl hp deps (st2, ctx2, [])
            a m (by simpa using h2)
          simp only
          rw [alLookup_alInsert_ne _ _ _ _ hax]
          exact h3

theorem reloadStep_meta_preserve {V C : Type} [Inhabited V]
    (rl : Reloaders V C) (hp : MetaPreserve rl)
    (acc : Storage V × C × List ReloadEvent) (k a : DepKey) (m : ResMetaData)
    (h : alLookup acc.1.metadata a = some m) :
    alLookup (reloadStep rl acc k).1.metadata a = some m := by
  obtain ⟨st, ctx, tr⟩ := acc
  rcases ho : reloadOne rl st ctx k with ⟨st', ctx', tr'⟩
  have := reloadOne_meta_preserve rl hp st ctx k a m (by simpa using h)
  rw [ho] at this
  simp only at this
  simpa [reloadStep, ho] using this

theorem reloadStep_foldl_meta_preserve {V C : Type} [Inhabited V]
    (rl : Reloaders V C) (hp : MetaPreserve rl) (ds : List DepKey)
    (acc : Storage V × C × List ReloadEvent) (a : DepKey) (m : ResMetaData)
    (h : alLookup acc.1.metadata a = some m) :
    alLookup ((ds.foldl (reloadStep rl) acc)).1.metadata a = some m := by
  induction ds generalizing acc with
  | nil => exact h
  | cons k t ih => exact ih _ (reloadStep_meta_preserve rl hp acc k a m h)

/-- C7: `sync` never surfaces an error: `reload_dirties` and `sync` always
return with the dirty set emptied (every dirty key is removed whatever its
reload did), and — provided the reload closures only ever add metadata, as
every closure acting through the public API does — every key's metadata
binding survives `reload_dirties`: in particular each dirty key's metadata
is reinserted, and the store is fully usable afterwards. -/
theorem sync_swallows_errors :
    (∀ (V C : Type) [Inhabited V] (disc : DiscoveryFn V C) (rl : Reloaders V C)
        (events : List FsEvent) (ds : List DepKey) (st : Storage V) (ctx : C),
        (syncStore disc rl events ds st ctx).1 = []) ∧
    (∀ (V C : Type) [Inhabited V] (rl : Reloaders V C) (ds : List DepKey)
        (st : Storage V) (ctx : C),
        (reload_dirties rl ds st ctx).1 = []) ∧
    (∀ (V C : Type) [Inhabited V] (rl : Reloaders V C), MetaPreserve rl →
        ∀ (ds : List DepKey) (st : Storage V) (ctx : C) (k : DepKey)
          (md : ResMetaData),
        alLookup st.metadata k = some md →
        alLookup (reload_dirties rl ds st ctx).2.1.metadata k = some md) := by
  have hrd : ∀ (V C : Type) [Inhabited V] (rl : Reloaders V C) (ds : List DepKey)
      (st : Storage V) (ctx : C), (reload_dirties rl ds st ctx).1 = [] := by
    intro V C _ rl ds st ctx
    rcases hf : ds.foldl (reloadStep rl) (st, ctx, ([] : List ReloadEvent))
      with ⟨st', ctx', tr⟩
    simp [reload_dirties, hf]
  refine ⟨?_, hrd, ?_⟩
  · intro V C _ disc rl events ds st ctx
    rcases hq : dequeue_fs_events disc events ds st ctx with ⟨ds', st', ctx'⟩
    simp [syncStore, hq, hrd]
  · intro V C _ rl hp ds st ctx k md h
    rcases hf : ds.foldl (reloadStep rl) (st, ctx, ([] : List ReloadEvent))
      with ⟨st', ctx', tr⟩
    have := reloadStep_foldl_meta_preserve rl hp ds (st, ctx, []) k md (by simpa using h)
    rw [hf] at this
    simp only at this
    simpa [reload_dirties, hf] using this

/-- Witness for C7: the identity reloader on the one-entry storage leaves
the dirty set empty and the metadata binding in place. -/
theorem sync_swallows_errors_witness :
    (reload_dirties (V := Nat) (C := Unit)
        (fun _ v _ st ctx => (Except.ok v, st, ctx))
        [DepKey.logical "k"] stOne ()).1 = [] ∧
    alLookup (reload_dirties (V := Nat) (C := Unit)
        (fun _ v _ st ctx => (Except.ok v, st, ctx))
        [DepKey.logical "k"] stOne ()).2.1.metadata (DepKey.logical "k") =
      some ⟨0, DepKey.logical "k", 0⟩ :=
  ⟨sync_swallows_errors.2.1 Nat Unit
      (fun _ v _ st ctx => (Except.ok v, st, ctx)) [DepKey.logical "k"] stOne (),
    sync_swallows_errors.2.2 Nat Unit
      (fun _ v _ st ctx => (Except.ok v, st, ctx))
      (fun _ _ _ _ _ _ _ h => h) [DepKey.logical "k"] stOne ()
      (DepKey.logical "k") ⟨0, DepKey.logical "k", 0⟩ rfl⟩

/-! ## Claim C2 -/

/-- Property of reload closures sufficient for coherence preservation: the
closure's storage effects preserve coherence relative to any exception
list (in particular it never adds a cache entry at an excepted key — the
key whose metadata is temporarily removed). -/
def RlPreserves {V C : Type} (rl : Reloaders V C) : Prop :=
  ∀ (S : List DepKey) (tag : Tag) (v : V) (key : DepKey) (st : Storage V)
    (ctx : C), CoherentExc S st → CoherentExc S (rl tag v key st ctx).2.1

theorem coherentExc_remove {V : Type} {S : List DepKey} {st : Storage V}
    (h : CoherentExc S st) (x : DepKey) :
    CoherentExc (x :: S) { st with metadata := alRemove st.metadata x } := by
  refine ⟨?_, h.2⟩
  intro e he
  rcases h.1 e he with hm | hS
  · by_cases hex : e.1.1 = x
    · exact Or.inr (by simp [hex])
    · refine Or.inl ?_
      show (alLookup (alRemove st.metadata x) e.1.1).isSome
      rw [alLookup_alRemove_ne _ _ _ hex]
      exact hm
  · exact Or.inr (List.mem_cons_of_mem x hS)

theorem coherentExc_insert {V : Type} {S : List DepKey} {st : Storage V}
    (h : CoherentExc (x :: S) st) (md : ResMetaData) :
    CoherentExc S { st with metadata := alInsert st.metadata x md } := by
  refine ⟨?_, h.2⟩
  intro e he
  by_cases hex : e.1.1 = x
  · refine Or.inl ?_
    show (alLookup (alInsert st.metadata x md) e.1.1).isSome
    rw [hex, alLookup_alInsert_self]
    rfl
  · rcases h.1 e he with hm | hS
    · refine Or.inl ?_
      show (alLookup (alInsert st.metadata x md) e.1.1).isSome
      rw [alLookup_alInsert_ne _ _ _ _ hex]
      exact hm
    · rcases List.mem_cons.mp hS with heq | hS'
      · exact absurd heq hex
      · exact Or.inr hS'

theorem runOnReload_coherent {V C : Type} [Inhabited V] {rl : Reloaders V C}
    (hp : RlPreserves rl) (S : List DepKey) (md : ResMetaData)
    (st : Storage V) (ctx : C) (h : CoherentExc S st) :
    CoherentExc S (runOnReload rl md st ctx).2.1 := by
  rcases hr : rl md.tag (heapGet st.heap md.cell) md.key st ctx with ⟨r, st', ctx'⟩
  have hc := hp S md.tag (heapGet st.heap md.cell) md.key st ctx h
  rw [hr] at hc
  simp only at hc
  cases r with
  | ok u =>
    simp only [runOnReload, hr]
    exact ⟨hc.1, hc.2⟩
  | error e =>
    simp only [runOnReload, hr]
    exact hc

theorem reloadDep_coherent {V C : Type} [Inhabited V] {rl : Reloaders V C}
    (hp : RlPreserves rl) (S : List DepKey)
    (acc : Storage V × C × List ReloadEvent) (d : DepKey)
    (h : CoherentExc S acc.1) : CoherentExc S (reloadDep rl acc d).1 := by
  obtain ⟨st, ctx, evs⟩ := acc
  simp only at h
  cases hmd : alLookup st.metadata d with
  | none => simpa [reloadDep, hmd] using h
  | some obs =>
    rcases hr : runOnReload rl obs { st with metadata := alRemove st.metadata d }
      ctx with ⟨r, st2, ctx2⟩
    have h1 := coherentExc_remove h d
    have h2 := runOnReload_coherent hp (d :: S) obs
      { st with metadata := alRemove st.metadata d } ctx h1
    rw [hr] at h2
    simp only at h2
    have h3 := coherentExc_insert h2 obs
    simpa [reloadDep, hmd, hr] using h3

theorem reloadDep_foldl_coherent {V C : Type} [Inhabited V] {rl : Reloaders V C}
    (hp : RlPreserves rl) (S : List DepKey) (deps : List DepKey)
    (acc : Storage V × C × List ReloadEvent) (h : CoherentExc S acc.1) :
    CoherentExc S ((deps.foldl (reloadDep rl) acc)).1 := by
  induction deps generalizing acc with
  | nil => exact h
  | cons d t ih => exact ih _ (reloadDep_coherent hp S acc d h)

theorem reloadOne_coherent {V C : Type} [Inhabited V] {rl : Reloaders V C}
    (hp : RlPreserves rl) (st : Storage V) (ctx : C) (x : DepKey)
    (h : Coherent st) : Coherent (reloadOne rl st ctx x).1 := by
  cases hmd : alLookup st.metadata x with
  | none => simpa [reloadOne, hmd] using h
  | some mdx =>
    rcases hr : runOnReload rl mdx { st with metadata := alRemove st.metadata x }
      ctx with ⟨r, st2, ctx2⟩
    have h1 := coherentExc_remove h x
    have h2 := runOnReload_coherent hp (x :: []) mdx
      { st with metadata := alRemove st.metadata x } ctx h1
    rw [hr] at h2
    simp only at h2
    cases hb : r.toBool
    · rw [reloadOne_eq_false hmd hr hb]
      exact coherentExc_insert h2 mdx
    · cases hd : alLookup st2.deps x with
      | none =>
        rw [reloadOne_eq_true_none hmd hr hb hd]
        exact coherentExc_insert h2 mdx
      | some deps =>
        rw [reloadOne_eq_true_some hmd hr hb hd]
        have h3 := reloadDep_foldl_coherent hp (x :: []) deps (st2, ctx2, []) h2
        exact coherentExc_insert h3 mdx

theorem reloadStep_foldl_coherent {V C : Type} [Inhabited V] {rl : Reloaders V C}
    (hp : RlPreserves rl) (ds : List DepKey)
    (acc : Storage V × C × List ReloadEvent) (h : Coherent acc.1) :
    Coherent ((ds.foldl (reloadStep rl) acc)).1 := by
  induction ds generalizing acc with
  | nil => exact h
  | cons k t ih =>
    refine ih _ ?_
    obtain ⟨st, ctx, tr⟩ := acc
    rcases ho : reloadOne rl st ctx k with ⟨st', ctx', tr'⟩
    have := reloadOne_coherent hp st ctx k (by simpa using h)
    rw [ho] at this
    simpa [reloadStep, ho] using this

theorem dequeue_fs_events_coherent {V C : Type} {disc : DiscoveryFn V C}
    (hdisc : ∀ p st1 ctx1, Coherent st1 → Coherent (disc p st1 ctx1).1)
    (events : List FsEvent) (dirties : List DepKey) (st : Storage V) (ctx : C)
    (h : Coherent st) :
    Coherent (dequeue_fs_events disc events dirties st ctx).2.1 := by
  induction events generalizing dirties st ctx with
  | nil => exact h
  | cons ev t ih =>
    cases ev with
    | other => exact ih dirties st ctx h
    | write p =>
      by_cases hm : (alLookup st.metadata (DepKey.path p)).isSome
      · have hstep : dequeue_fs_events disc (FsEvent.write p :: t) dirties st ctx =
            dequeue_fs_events disc t
              (if DepKey.path p ∈ dirties then dirties
                else dirties ++ [DepKey.path p]) st ctx := by
          simp [dequeue_fs_events, hm]
        rw [hstep]
        exact ih _ st ctx h
      · rcases hd : disc p st ctx with ⟨st2, ctx2⟩
        have hstep : dequeue_fs_events disc (FsEvent.write p :: t) dirties st ctx =
            dequeue_fs_events disc t dirties st2 ctx2 := by
          simp [dequeue_fs_events, hm, hd]
        rw [hstep]
        have h2 := hdisc p st ctx h
        rw [hd] at h2
        exact ih dirties st2 ctx2 h2
    | create p =>
      by_cases hm : (alLookup st.metadata (DepKey.path p)).isSome
      · have hstep : dequeue_fs_events disc (FsEvent.create p :: t) dirties st ctx =
            dequeue_fs_events disc t
              (if DepKey.path p ∈ dirties then dirties
                else dirties ++ [DepKey.path p]) st ctx := by
          simp [dequeue_fs_events, hm]
        rw [hstep]
        exact ih _ st ctx h
      · rcases hd : disc p st ctx with ⟨st2, ctx2⟩
        have hstep : dequeue_fs_events disc (FsEvent.create p :: t) dirties st ctx =
            dequeue_fs_events disc t dirties st2 ctx2 := by
          simp [dequeue_fs_events, hm, hd]
        rw [hstep]
        have h2 := hdisc p st ctx h
        rw [hd] at h2
        exact ih dirties st2 ctx2 h2

theorem inject_coherent {V : Type} {st st' : Storage V} {key : DepKey}
    {tag : Tag} {v : V} {deps : List DepKey} {c : Nat}
    (h : Coherent st) (hinj : st.inject key tag v deps = .ok (c, st')) :
    Coherent st' := by
  by_cases hm : (alLookup st.metadata key).isSome
  · rw [inject_present st key tag v deps hm] at hinj
    exact absurd hinj (by simp)
  · rw [inject_absent st key tag v deps hm] at hinj
    injection hinj with h1
    injection h1 with h1 h2
    subst h2
    constructor
    · intro e he
      rcases (mem_alInsert _ _ _ _).mp he with rfl | ⟨hmem, hne⟩
      · refine Or.inl ?_
        show (alLookup (alInsert st.metadata key
          ⟨st.heap.length, key, tag⟩) key).isSome
        rw [alLookup_alInsert_self]
        rfl
      · by_cases hek : e.1.1 = key
        · refine Or.inl ?_
          show (alLookup (alInsert st.metadata key
            ⟨st.heap.length, key, tag⟩) e.1.1).isSome
          rw [hek, alLookup_alInsert_self]
          rfl
        · rcases h.1 e hmem with hm2 | hS
          · refine Or.inl ?_
            show (alLookup (alInsert st.metadata key
              ⟨st.heap.length, key, tag⟩) e.1.1).isSome
            rw [alLookup_alInsert_ne _ _ _ _ hek]
            exact hm2
          · simp at hS
    · intro e1 he1 e2 he2 hk
      rcases (mem_alInsert _ _ _ _).mp he1 with rfl | ⟨h1m, h1ne⟩ <;>
        rcases (mem_alInsert _ _ _ _).mp he2 with rfl | ⟨h2m, h2ne⟩
      · rfl
      · exfalso
        rcases h.1 e2 h2m with hm2 | hS
        · rw [← hk] at hm2
          exact hm hm2
        · simp at hS
      · exfalso
        rcases h.1 e1 h1m with hm2 | hS
        · rw [hk] at hm2
          exact hm hm2
        · simp at hS
      · exact h.2 e1 h1m e2 h2m hk

theorem coherent_storage_new (V : Type) (root : RPath) :
    Coherent (Storage.new V root) := by
  constructor
  · intro e he
    simp [Storage.new] at he
  · intro e1 he1 e2 he2 _
    simp [Storage.new] at he1

theorem coherent_stOne : Coherent stOne := by
  constructor
  · intro e he
    obtain rfl := List.mem_singleton.mp he
    exact Or.inl rfl
  · intro e1 he1 e2 he2 _
    obtain rfl := List.mem_singleton.mp he1
    obtain rfl := List.mem_singleton.mp he2
    rfl

/-- C2 (amended): identity stability holds — a cache hit returns the
cached cell without invoking the loader and without touching the state,
and a successful `get_by` leaves the prepared key mapped to the returned
cell whose `canon_root` the loader did not change, so every later `get_by`
there aliases the same cell; `inject` preserves the at-most-one-entry /
at-most-one-handle invariant, `get_by` preserves it whenever its loader
does, and `sync` preserves it whenever the discovery hook and the reload
closures preserve coherence relative to the exception list of keys whose
metadata is temporarily removed — the proviso that fails exactly when a
reload closure installs an entry at the key under reload during the
re-entrancy window. -/
theorem handle_identity_spec :
    (∀ (V C : Type) (st : Storage V) (load load' : LoadFn V C) (key : DepKey)
        (tag : Tag) (ctx : C) (r : Nat),
        alLookup st.cache (key.prepare_key st.canon_root, tag) = some r →
        st.get_by load key tag ctx = (.ok r, st, ctx) ∧
        st.get_by load key tag ctx = st.get_by load' key tag ctx) ∧
    (∀ (V C : Type) (st st' : Storage V) (load load' : LoadFn V C)
        (key : DepKey) (tag : Tag) (ctx ctx' : C) (c : Nat),
        st.get_by load key tag ctx = (.ok c, st', ctx') →
        st.canon_root = st'.canon_root →
        alLookup st'.cache (key.prepare_key st'.canon_root, tag) = some c ∧
        st'.get_by load' key tag ctx' = (.ok c, st', ctx')) ∧
    (∀ (V : Type) (st st' : Storage V) (key : DepKey) (tag : Tag) (v : V)
        (deps : List DepKey) (c : Nat),
        Coherent st → st.inject key tag v deps = .ok (c, st') →
        Coherent st') ∧
    (∀ (V C : Type) (st : Storage V) (load : LoadFn V C) (key : DepKey)
        (tag : Tag) (ctx : C),
        Coherent st →
        (∀ k1 st1 ctx1, Coherent st1 → Coherent (load k1 st1 ctx1).2.1) →
        Coherent (st.get_by load key tag ctx).2.1) ∧
    (∀ (V C : Type) [Inhabited V] (disc : DiscoveryFn V C) (rl : Reloaders V C)
        (events : List FsEvent) (ds : List DepKey) (st : Storage V) (ctx : C),
        Coherent st →
        (∀ p st1 ctx1, Coherent st1 → Coherent (disc p st1 ctx1).1) →
        RlPreserves rl →
        Coherent (syncStore disc rl events ds st ctx).2.1) := by
  refine ⟨?_, ?_, ?_, ?_, ?_⟩
  · intro V C st load load' key tag ctx r hc
    exact ⟨get_by_hit hc, by rw [get_by_hit hc, get_by_hit hc]⟩
  · intro V C st st' load load' key tag ctx ctx' c hget hroot
    cases hc : alLookup st.cache (key.prepare_key st.canon_root, tag) with
    | some r =>
      rw [get_by_hit hc] at hget
      injection hget with h1 h2
      injection h2 with h2 h3
      injection h1 with h1
      subst h1 h2
      refine ⟨hc, get_by_hit hc⟩
    | none =>
      rcases hl : load (key.prepare_key st.canon_root) st ctx with ⟨res, stl, ctxl⟩
      cases res with
      | error e =>
        rw [get_by_miss_err hc hl] at hget
        exact absurd hget (by simp)
      | ok p =>
        obtain ⟨v, deps⟩ := p
        by_cases hm : (alLookup stl.metadata (key.prepare_key st.canon_root)).isSome
        · have heq := get_by_miss_ok hc hl
          rw [inject_present stl _ tag v deps hm] at heq
          rw [heq] at hget
          exact absurd hget (by simp)
        · have heq := get_by_miss_ok hc hl
          rw [inject_absent stl _ tag v deps hm] at heq
          rw [heq] at hget
          have hget' : ((Except.ok stl.heap.length : Except StoreErrorOr Nat),
              ({ stl with
                  cache := alInsert stl.cache
                    (key.prepare_key st.canon_root, tag) stl.heap.length,
                  deps := deps.foldl (fun dm dep => depsPush dm
                    (dep.prepare_key stl.canon_root)
                    (key.prepare_key st.canon_root)) stl.deps,
                  metadata := alInsert stl.metadata
                    (key.prepare_key st.canon_root)
                    ⟨stl.heap.length, key.prepare_key st.canon_root, tag⟩,
                  heap := stl.heap ++ [v] } : Storage V), ctxl) =
              (.ok c, st', ctx') := hget
          injection hget' with h1 h2
          injection h2 with h2 h3
          injection h1 with h1
          subst h1 h2
          have hroot' : st.canon_root = stl.canon_root := hroot
          constructor
          · show alLookup (alInsert stl.cache
              (key.prepare_key st.canon_root, tag) stl.heap.length)
              (key.prepare_key stl.canon_root, tag) = some stl.heap.length
            rw [← hroot']
            exact alLookup_alInsert_self ..
          · refine get_by_hit ?_
            show alLookup (alInsert stl.cache
              (key.prepare_key st.canon_root, tag) stl.heap.length)
              (key.prepare_key stl.canon_root, tag) = some stl.heap.length
            rw [← hroot']
            exact alLookup_alInsert_self ..
  · intro V st st' key tag v deps c hcoh hinj
    exact inject_coherent hcoh hinj
  · intro V C st load key tag ctx hcoh hload
    cases hc : alLookup st.cache (key.prepare_key st.canon_root, tag) with
    | some r =>
      rw [get_by_hit hc]
      exact hcoh
    | none =>
      rcases hl : load (key.prepare_key st.canon_root) st ctx with ⟨res, stl, ctxl⟩
      have hstl : Coherent stl := by
        have := hload (key.prepare_key st.canon_root) st ctx hcoh
        rw [hl] at this
        exact this
      cases res with
      | error e =>
        rw [get_by_miss_err hc hl]
        exact hstl
      | ok p =>
        obtain ⟨v, deps⟩ := p
        by_cases hm : (alLookup stl.metadata (key.prepare_key st.canon_root)).isSome
        · have heq := get_by_miss_ok hc hl
          rw [inject_present stl _ tag v deps hm] at heq
          rw [heq]
          exact hstl
        · have heq := get_by_miss_ok hc hl
          rw [inject_absent stl _ tag v deps hm] at heq
          rw [heq]
          exact inject_coherent hstl (inject_absent stl _ tag v deps hm)
  · intro V C _ disc rl events ds st ctx hcoh hdisc hrl
    rcases hq : dequeue_fs_events disc events ds st ctx with ⟨ds', st', ctx'⟩
    have h1 := dequeue_fs_events_coherent hdisc events ds st ctx hcoh
    rw [hq] at h1
    simp only at h1
    have h2 : Coherent (reload_dirties rl ds' st' ctx').2.1 := by
      rcases hf : ds'.foldl (reloadStep rl) (st', ctx', ([] : List ReloadEvent))
        with ⟨sf, cf, tf⟩
      have := reloadStep_foldl_coherent hrl ds' (st', ctx', []) (by simpa using h1)
      rw [hf] at this
      simpa [reload_dirties, hf] using this
    simpa [syncStore, hq] using h2

/-- Loader used by the re-entrant reload closure of the C2 deviation: it
succeeds with the value `20` and no dependencies. -/
def cexLoadB : LoadFn Nat Unit := fun _ st ctx => (Except.ok (20, []), st, ctx)

/-- Reload closure registry in which the reload of tag `0` re-entrantly
calls `get_by` at the same key with tag `1` (a different value type),
exactly what a `Load::reload` implementation doing
`storage.get::<Other>(&same_key, ctx)` does. -/
def cexRl : Reloaders Nat Unit := fun tag v _ st ctx =>
  if tag = 0 then
    let r := st.get_by cexLoadB (DepKey.logical "k") 1 ctx
    (Except.ok v, r.2.1, r.2.2)
  else (Except.ok v, st, ctx)

/-- Counterexample to C2 as stated: starting from the coherent one-entry
storage, one `reload_dirties` pass whose reload closure re-entrantly
`get`s a different value type at the key under reload (whose metadata is
temporarily removed) ends with two cache entries — two handle identities
— for that key: the at-most-one-per-key invariant is not preserved
through the reload re-entrancy window. -/
theorem handle_invariant_counterexample :
    Coherent stOne ∧
    ¬ AtMostOnePerKey
      (reload_dirties cexRl [DepKey.logical "k"] stOne ()).2.1 := by
  refine ⟨coherent_stOne, ?_⟩
  intro h
  have hc : (reload_dirties cexRl [DepKey.logical "k"] stOne ()).2.1.cache =
      [((DepKey.logical "k", 1), 1), ((DepKey.logical "k", 0), 0)] := rfl
  have h2 := h ((DepKey.logical "k", 1), 1) (by rw [hc]; simp)
    ((DepKey.logical "k", 0), 0) (by rw [hc]; simp) rfl
  simp at h2

/-- Witness for C2 (amended) at concrete inputs: a hit aliases the cached
cell, a fresh install registers the prepared key, `inject` builds the
coherent one-entry storage from the empty one, a `get_by` whose inject is
refused stays coherent, and a full `sync` with well-behaved closures
preserves coherence. -/
theorem handle_identity_spec_witness :
    stOne.get_by ldFail (DepKey.logical "k") 0 () = (.ok 0, stOne, ()) ∧
    (alLookup stOne.cache
        ((DepKey.logical "k").prepare_key stOne.canon_root, 0) = some 0 ∧
      stOne.get_by ldFail (DepKey.logical "k") 0 () = (.ok 0, stOne, ())) ∧
    Coherent stOne ∧
    Coherent (stOne.get_by cexLoadB (DepKey.logical "k") 1 ()).2.1 ∧
    Coherent (syncStore (V := Nat) (C := Unit) (fun _ st ctx => (st, ctx))
      (fun _ v _ st ctx => (Except.ok v, st, ctx)) []
      [DepKey.logical "k"] stOne ()).2.1 :=
  ⟨(handle_identity_spec.1 Nat Unit stOne ldFail ldFail (DepKey.logical "k")
      0 () 0 rfl).1,
    handle_identity_spec.2.1 Nat Unit stOne stOne ldFail ldFail
      (DepKey.logical "k") 0 () () 0 rfl rfl,
    handle_identity_spec.2.2.1 Nat (Storage.new Nat []) stOne
      (DepKey.logical "k") 0 10 [] 0 (coherent_storage_new Nat []) rfl,
    handle_identity_spec.2.2.2.1 Nat Unit stOne cexLoadB (DepKey.logical "k")
      1 () coherent_stOne (fun _ _ _ h => h),
    handle_identity_spec.2.2.2.2 Nat Unit (fun _ st ctx => (st, ctx))
      (fun _ v _ st ctx => (Except.ok v, st, ctx)) [] [DepKey.logical "k"]
      stOne () coherent_stOne (fun _ _ _ h => h) (fun _ _ _ _ _ _ h => h)⟩
